import Mathlib

/-!
Shallow embedding of the retrieval-augmented-generation engine in
`rag_engine.py` (class `RAGEngine`), together with theorems settling the
specification claims about it.

Modelling conventions:
* Python strings are Lean `String`s; the chunker works on `List Char`
  internally so that `str.split()` / `str.strip()` / `' '.join(...)` can be
  embedded as structurally recursive functions.
* Embedding vectors are `List ℚ` (exact rationals stand in for floats; the
  claims under verification do not depend on rounding of distances).
* The external embedding model (`SentenceTransformer.encode`) is an abstract
  parameter `embed : String → Vec`; batched encoding is its `List.map`.
* The external completion service (the Groq chat call) is an abstract
  parameter returning `Except String String`: `Except.error e` is the model
  of any exception raised inside the `try` block, with `e` the text of
  `str(e)`.
* The FAISS `IndexFlatL2` is modelled by the list of its stored vectors;
  `search` is exhaustive squared-L2 nearest-neighbour search that returns
  exactly `k` (distance, index) pairs in ascending distance order, padding
  with `(FLT_MAX, -1)` when fewer than `k` vectors are stored, as FAISS does.
-/

namespace RagVerify

/-- A stored chunk record: the dict
`{'text': ..., 'filename': ..., 'chunk_id': ...}` appended to
`self.chunks` by `RAGEngine.add_documents`. -/
structure Chunk where
  text : String
  filename : String
  chunk_id : Nat
deriving DecidableEq, Repr, Inhabited

/-- An embedding vector (a row of the FAISS index / an `encode` output). -/
abbrev Vec := List ℚ

/-- A transient ingestion input: a dict with `text` and `filename` keys. -/
structure Document where
  text : String
  filename : String
deriving DecidableEq, Repr, Inhabited

/-- The mutable engine state: the FAISS index (`self.index`, modelled by its
stored vectors in insertion order) and the parallel chunk list
(`self.chunks`). -/
structure RAGState where
  index : List Vec
  chunks : List Chunk
deriving DecidableEq, Repr, Inhabited

/-- A retrieval hit: the copied chunk dict with the added
`'similarity_score'` key, as built by `retrieve_relevant_chunks`. -/
structure RetrievalResult where
  text : String
  filename : String
  chunk_id : Nat
  similarity_score : ℚ
deriving DecidableEq, Repr, Inhabited

/-- One entry of the `sources` list assembled by `RAGEngine.query`. -/
structure Source where
  filename : String
  text_snippet : String
  similarity_score : ℚ
deriving DecidableEq, Repr, Inhabited

/-- The dict returned by `RAGEngine.query`. -/
structure QueryResponse where
  answer : String
  sources : List Source
  num_sources : Nat
deriving DecidableEq, Repr, Inhabited

/-! ## The chunker (`RAGEngine.chunk_text`) -/

/-- Accumulator-based word splitter: `splitWordsAux cs acc` processes the
remaining characters `cs` while `acc` holds the word currently being read.
This is Python's `str.split()` (split on whitespace runs, no empty words). -/
def splitWordsAux : List Char → List Char → List (List Char)
  | [], acc => if acc.isEmpty then [] else [acc]
  | c :: cs, acc =>
    if c.isWhitespace then
      if acc.isEmpty then splitWordsAux cs [] else acc :: splitWordsAux cs []
    else
      splitWordsAux cs (acc ++ [c])

/-- Python's `text.split()`: the maximal whitespace-free runs of `text`. -/
def splitWords (l : List Char) : List (List Char) :=
  splitWordsAux l []

/-- Python's `' '.join(words)`. -/
def joinSp : List (List Char) → List Char
  | [] => []
  | [w] => w
  | w :: v :: ws => w ++ ' ' :: joinSp (v :: ws)

/-- Python's `s.strip()`: drop leading and trailing whitespace. -/
def pyStrip (l : List Char) : List Char :=
  ((l.dropWhile Char.isWhitespace).reverse.dropWhile Char.isWhitespace).reverse

/-- Python's `range(0, n, step)` for a positive `step`. -/
def pyRangeStep (n step : Nat) : List Nat :=
  (List.range ((n + step - 1) / step)).map (· * step)

/-- The loop body of `chunk_text` for a positive step: for each window start
`i`, join `words[i : i + chunk_size]` with single spaces and keep the
stripped window when it is non-empty. -/
def chunkTextCore (words : List (List Char)) (chunk_size step : Nat) :
    List (List Char) :=
  (pyRangeStep words.length step).filterMap (fun i =>
    let chunk := joinSp ((words.drop i).take chunk_size)
    if pyStrip chunk = [] then none else some (pyStrip chunk))

/-- `RAGEngine.chunk_text`.  The Python loop steps by
`chunk_size - overlap`: when that step is zero, `range` raises `ValueError`
(modelled as `none`); when it is negative, `range` is empty and the function
silently returns `[]`. -/
def chunk_text (text : String) (chunk_size overlap : Nat) :
    Option (List String) :=
  if chunk_size = overlap then none
  else if chunk_size < overlap then some []
  else some (((chunkTextCore (splitWords text.toList) chunk_size
      (chunk_size - overlap))).map String.mk)

/-! ## The FAISS flat L2 index (`faiss.IndexFlatL2`) -/

/-- Squared Euclidean distance between two vectors (FAISS `IndexFlatL2`
reports squared L2 distances). -/
def sqDist (u v : Vec) : ℚ :=
  ((u.zip v).map (fun p => (p.1 - p.2) * (p.1 - p.2))).sum

/-- The value FAISS places in unfilled result slots: `FLT_MAX`,
whose exact value is `(2 - 2⁻²³) · 2¹²⁷ = 2¹²⁸ - 2¹⁰⁴`.  Unfilled index
slots hold `-1`. -/
def paddingDist : ℚ := 2 ^ 128 - 2 ^ 104

/-- Ordering of search candidates by ascending distance. -/
def distLE (a b : ℚ × Int) : Prop := a.1 ≤ b.1

instance : DecidableRel distLE := fun a b =>
  decidable_of_iff (a.1 ≤ b.1) Iff.rfl

instance : IsTotal (ℚ × Int) distLE := ⟨fun a b => le_total a.1 b.1⟩

instance : IsTrans (ℚ × Int) distLE := ⟨fun _ _ _ => le_trans⟩

/-- `index.search(q, k)` on a flat L2 index holding `db`: the `k` nearest
stored vectors as (squared distance, insertion position) pairs in ascending
distance order, padded with `(FLT_MAX, -1)` entries when fewer than `k`
vectors are stored.  (A candidate whose distance reaches `FLT_MAX` never
displaces the heap sentinel, hence the filter.) -/
def searchL2 (db : List Vec) (q : Vec) (k : Nat) : List (ℚ × Int) :=
  let cands := ((List.range db.length).map
    (fun i => (sqDist q (db.getD i []), (i : Int)))).filter
      (fun p => p.1 < paddingDist)
  let top := (cands.insertionSort distLE).take k
  top ++ List.replicate (k - top.length) (paddingDist, -1)

/-- Python list indexing with the negative-wrap rule: `l[i]` for `i < 0`
means `l[len(l) + i]`. -/
def pyListIdx (n : Nat) (i : Int) : Nat :=
  if i < 0 then (i + n).toNat else i.toNat

/-! ## Retrieval (`RAGEngine.retrieve_relevant_chunks`) -/

/-- `RAGEngine.retrieve_relevant_chunks`: short-circuit on an empty chunk
list, embed the query, search the index for `top_k` neighbours, and keep
each (distance, index) pair with `dist < similarity_threshold` and
`idx < len(self.chunks)` — note the code does not check `0 <= idx`; a
negative index selects via Python's wrap-around rule.  Each kept hit is a
copy of the stored chunk dict with the added `'similarity_score'` key. -/
def retrieve_relevant_chunks (embed : String → Vec) (s : RAGState)
    (query : String) (top_k : Nat) (similarity_threshold : ℚ) :
    List RetrievalResult :=
  if s.chunks.length = 0 then []
  else
    let query_embedding := embed query
    let pairs := searchL2 s.index query_embedding top_k
    pairs.filterMap (fun p =>
      if p.1 < similarity_threshold ∧ p.2 < (s.chunks.length : Int) then
        let c := s.chunks.getD (pyListIdx s.chunks.length p.2) default
        some ⟨c.text, c.filename, c.chunk_id, p.1⟩
      else none)

/-- Modelled from the spec (§4.4 Retriever), for comparison with the code:
emit a result exactly for each (distance, index) search pair with
`distance < threshold` and `index` a valid chunk-store position
`0 ≤ index < n`, preserving the search order. -/
def retrieveSpec (embed : String → Vec) (s : RAGState) (query : String)
    (top_k : Nat) (threshold : ℚ) : List RetrievalResult :=
  if s.chunks.length = 0 then []
  else
    (searchL2 s.index (embed query) top_k).filterMap (fun p =>
      if 0 ≤ p.2 ∧ p.2 < (s.chunks.length : Int) ∧ p.1 < threshold then
        let c := s.chunks.getD p.2.toNat default
        some ⟨c.text, c.filename, c.chunk_id, p.1⟩
      else none)

/-! ## Answer generation (`RAGEngine.generate_answer`, `RAGEngine.query`) -/

/-- The fixed refusal returned when no context chunks were retrieved. -/
def refusalAnswer : String :=
  "I don\x27t have enough information in the uploaded documents to answer this question."

/-- The system message sent to the completion service. -/
def systemContent : String :=
  "You are a helpful assistant that answers questions strictly based on provided context. Never make up information."

/-- The context block: each chunk's text prefixed by its filename, joined
with blank lines. -/
def buildContext (context_chunks : List RetrievalResult) : String :=
  String.intercalate "\n\n" (context_chunks.map
    (fun c => "[From " ++ c.filename ++ "]\n" ++ c.text))

/-- The user prompt assembled by `generate_answer` (the f-string). -/
def buildPrompt (query : String) (context_chunks : List RetrievalResult) :
    String :=
  "You are a helpful assistant that answers questions based ONLY on the provided context. \nIf the answer cannot be found in the context, you must respond with: \"I don\x27t have enough information in the uploaded documents.\"\n\nContext:\n"
    ++ buildContext context_chunks
    ++ "\n\nQuestion: " ++ query ++ "\n\nAnswer:"

/-- `RAGEngine.generate_answer`: refuse on empty context; otherwise call the
completion service (abstracted as `llm`, receiving the system message and
user prompt) inside a `try` block — any raised exception `e` is caught and
turned into the string `"Error generating answer: " + str(e)`. -/
def generate_answer (llm : String → String → Except String String)
    (query : String) (context_chunks : List RetrievalResult) : String :=
  if context_chunks.isEmpty then refusalAnswer
  else
    match llm systemContent (buildPrompt query context_chunks) with
    | .ok answer => answer
    | .error e => "Error generating answer: " ++ e

/-- Python's `round(x, 3)` on the similarity score.  (Exact rational
rounding; Python's float round-half-even can differ on exact halves.) -/
def round3 (q : ℚ) : ℚ := (round (1000 * q) : ℤ) / 1000

/-- One `sources` entry of `RAGEngine.query`: filename, text truncated to
200 characters with a `"..."` marker, and the rounded score. -/
def make_source (r : RetrievalResult) : Source :=
  ⟨r.filename,
   if r.text.length > 200 then r.text.take 200 ++ "..." else r.text,
   round3 r.similarity_score⟩

/-- `RAGEngine.query`: retrieve with the default `top_k=5` and threshold
`1.5`, generate the answer, and assemble the response dict. -/
def query (embed : String → Vec)
    (llm : String → String → Except String String) (s : RAGState)
    (question : String) : QueryResponse :=
  let relevant_chunks := retrieve_relevant_chunks embed s question 5 (3 / 2)
  let answer := generate_answer llm question relevant_chunks
  let sources := relevant_chunks.map make_source
  ⟨answer, sources, sources.length⟩

/-! ## Ingestion and clearing (`RAGEngine.add_documents`,
`RAGEngine.clear_index`) -/

/-- The metadata loop of `add_documents`: append each text chunk as a record
whose `chunk_id` is the chunk list's length at the moment of insertion. -/
def appendChunks : List Chunk → List String → String → List Chunk
  | chunks, [], _ => chunks
  | chunks, c :: rest, filename =>
    appendChunks (chunks ++ [⟨c, filename, chunks.length⟩]) rest filename

/-- The per-document body of `add_documents`: chunk the text, encode all
chunks (one vector per chunk), extend the index, then append the metadata
records. -/
def addDoc (embed : String → Vec) (s : RAGState) (doc : Document) :
    RAGState :=
  let text_chunks := (chunk_text doc.text 500 50).getD []
  let embeddings := text_chunks.map embed
  { index := s.index ++ embeddings,
    chunks := appendChunks s.chunks text_chunks doc.filename }

/-- `RAGEngine.add_documents` over a batch of documents (the final
`save_index()` snapshots the state and does not change it). -/
def add_documents (embed : String → Vec) (docs : List Document)
    (s : RAGState) : RAGState :=
  docs.foldl (addDoc embed) s

/-- `RAGEngine.clear_index`: fresh empty index and empty chunk list. -/
def clear_index (_s : RAGState) : RAGState :=
  { index := [], chunks := [] }

/-- `RAGEngine.get_stats`. -/
def get_stats (s : RAGState) : Nat × Nat :=
  (s.chunks.length,
   if s.chunks.isEmpty then 0
   else (s.chunks.map Chunk.filename).dedup.length)

/-! ## Persistence (`RAGEngine.save_index`, `RAGEngine.load_index`)

`save_index` writes the FAISS index with `faiss.write_index` (an opaque
snapshot of the stored vectors) and the chunk list with `json.dump`;
`load_index` reads both back.  The JSON layer is modelled explicitly so the
round trip is a genuine encode/decode. -/

/-- A JSON value, as produced by `json.dump` / consumed by `json.load`. -/
inductive Json where
  | str : String → Json
  | num : Int → Json
  | arr : List Json → Json
  | obj : List (String × Json) → Json

/-- The JSON object written for one chunk record. -/
def encodeChunk (c : Chunk) : Json :=
  .obj [("text", .str c.text), ("filename", .str c.filename),
        ("chunk_id", .num (c.chunk_id : Int))]

/-- Reading one chunk record back from its JSON object. -/
def decodeChunk : Json → Option Chunk
  | .obj [("text", .str t), ("filename", .str f), ("chunk_id", .num n)] =>
    if 0 ≤ n then some ⟨t, f, n.toNat⟩ else none
  | _ => none

/-- The pair of files in `vector_store/`: the serialized index and the
chunks JSON. -/
structure SavedFiles where
  indexFile : List Vec
  chunksFile : Json

/-- `RAGEngine.save_index`. -/
def save_index (s : RAGState) : SavedFiles :=
  ⟨s.index, .arr (s.chunks.map encodeChunk)⟩

/-- `RAGEngine.load_index` (the branch where both files exist, which is the
case immediately after a `save_index`). -/
def load_index (files : SavedFiles) : Option RAGState :=
  match files.chunksFile with
  | .arr l => (l.mapM decodeChunk).map (fun cs => ⟨files.indexFile, cs⟩)
  | _ => none

/-! ## Heap model of retrieval (object identity of the returned dicts)

`retrieve_relevant_chunks` returns `self.chunks[idx].copy()` with an added
key, not the stored dict itself.  To make the copy observable we re-embed
the function over an explicit heap of Python dicts: the chunk store holds
heap addresses, `dict.copy()` is a fresh allocation, and mutating a dict is
`heapSet` at its address. -/

/-- A primitive Python value stored in a chunk dict. -/
inductive PVal where
  | str : String → PVal
  | int : Int → PVal
  | rat : ℚ → PVal
deriving DecidableEq, Repr

/-- A Python dict with string keys, in insertion order. -/
abbrev PyDict := List (String × PVal)

/-- The heap: dict objects addressed by position. -/
structure PyHeap where
  cells : List PyDict
deriving DecidableEq, Repr

/-- Dereference an address. -/
def heapGet (h : PyHeap) (a : Nat) : PyDict :=
  h.cells.getD a []

/-- Overwrite the dict at an address (a mutation of that object). -/
def heapSet (h : PyHeap) (a : Nat) (v : PyDict) : PyHeap :=
  ⟨h.cells.set a v⟩

/-- Allocate a fresh dict, returning the new heap and its address. -/
def heapAlloc (h : PyHeap) (v : PyDict) : PyHeap × Nat :=
  (⟨h.cells ++ [v]⟩, h.cells.length)

/-- Python dict assignment `d[k] = v`: update in place if the key exists,
else append the new key. -/
def dictSet : PyDict → String → PVal → PyDict
  | [], k, v => [(k, v)]
  | (k1, v1) :: rest, k, v =>
    if k1 = k then (k1, v) :: rest else (k1, v1) :: dictSet rest k v

/-- `retrieve_relevant_chunks` over the heap: `chunkAddrs` are the addresses
of the stored chunk dicts (the elements of `self.chunks`); each kept hit
allocates a `.copy()` of the stored dict extended with
`'similarity_score'` and returns the fresh address. -/
def retrieveHeap (embed : String → Vec) (h : PyHeap) (index : List Vec)
    (chunkAddrs : List Nat) (query : String) (top_k : Nat)
    (similarity_threshold : ℚ) : PyHeap × List Nat :=
  if chunkAddrs.length = 0 then (h, [])
  else
    (searchL2 index (embed query) top_k).foldl (fun acc p =>
      if p.1 < similarity_threshold ∧ p.2 < (chunkAddrs.length : Int) then
        let addr := chunkAddrs.getD (pyListIdx chunkAddrs.length p.2) 0
        let alloc := heapAlloc acc.1
          (dictSet (heapGet acc.1 addr) "similarity_score" (.rat p.1))
        (alloc.1, acc.2 ++ [alloc.2])
      else acc) (h, [])

/-- Field lookup used by `query` on a returned chunk dict. -/
def dictGetStr (d : PyDict) (k : String) : String :=
  match d.lookup k with
  | some (.str v) => v
  | _ => ""

/-- Rational field lookup on a returned chunk dict. -/
def dictGetRat (d : PyDict) (k : String) : ℚ :=
  match d.lookup k with
  | some (.rat v) => v
  | _ => 0

/-- Nat field lookup on a returned chunk dict. -/
def dictGetNat (d : PyDict) (k : String) : Nat :=
  match d.lookup k with
  | some (.int v) => v.toNat
  | _ => 0

/-- View of a returned chunk dict as a retrieval result. -/
def recordToResult (d : PyDict) : RetrievalResult :=
  ⟨dictGetStr d "text", dictGetStr d "filename", dictGetNat d "chunk_id",
   dictGetRat d "similarity_score"⟩

/-- `RAGEngine.query` over the heap: retrieve, then read (never write) the
returned dicts to build the answer and sources. -/
def queryHeap (embed : String → Vec)
    (llm : String → String → Except String String) (h : PyHeap)
    (index : List Vec) (chunkAddrs : List Nat) (question : String) :
    PyHeap × QueryResponse :=
  let rr := retrieveHeap embed h index chunkAddrs question 5 (3 / 2)
  let results := rr.2.map (fun a => recordToResult (heapGet rr.1 a))
  (rr.1, ⟨generate_answer llm question results, results.map make_source,
          results.length⟩)

/-! ## Lemmas about the chunker -/

/-- Words cut out by the splitter are non-empty and whitespace-free,
provided the accumulator is whitespace-free. -/
theorem splitWordsAux_mem (l : List Char) (acc : List Char)
    (hacc : ∀ c ∈ acc, c.isWhitespace = false) :
    ∀ w ∈ splitWordsAux l acc, w ≠ [] ∧ ∀ c ∈ w, c.isWhitespace = false := by
  induction l generalizing acc with
  | nil =>
    intro w hw
    simp only [splitWordsAux] at hw
    by_cases h : acc.isEmpty
    · simp [h] at hw
    · simp [h] at hw
      subst hw
      exact ⟨by simpa [List.isEmpty_iff] using h, hacc⟩
  | cons c cs ih =>
    intro w hw
    simp only [splitWordsAux] at hw
    by_cases hws : c.isWhitespace
    · by_cases h : acc.isEmpty
      · simp [hws, h] at hw
        exact ih [] (by simp) w hw
      · simp [hws, h] at hw
        rcases hw with hw | hw
        · subst hw
          exact ⟨by simpa [List.isEmpty_iff] using h, hacc⟩
        · exact ih [] (by simp) w hw
    · simp [hws] at hw
      refine ih (acc ++ [c]) ?_ w hw
      intro d hd
      rcases List.mem_append.mp hd with hd | hd
      · exact hacc d hd
      · simp at hd
        subst hd
        simpa using hws

/-- Every word of `splitWords l` is non-empty and whitespace-free. -/
theorem splitWords_wf (l : List Char) :
    ∀ w ∈ splitWords l, w ≠ [] ∧ ∀ c ∈ w, c.isWhitespace = false :=
  splitWordsAux_mem l [] (by simp)

/-- Feeding a whitespace-free run into the splitter just extends the
accumulator. -/
theorem splitWordsAux_word (w rest acc : List Char)
    (hw : ∀ c ∈ w, c.isWhitespace = false) :
    splitWordsAux (w ++ rest) acc = splitWordsAux rest (acc ++ w) := by
  induction w generalizing acc with
  | nil => simp
  | cons c w' ih =>
    have hc : c.isWhitespace = false := hw c (by simp)
    have h1 : splitWordsAux ((c :: w') ++ rest) acc
        = splitWordsAux (w' ++ rest) (acc ++ [c]) := by
      simp [splitWordsAux, hc]
    rw [h1, ih (acc ++ [c]) (fun d hd => hw d (by simp [hd]))]
    simp

/-- Splitting a single-space join of non-empty whitespace-free words
recovers exactly those words (`' '.join` then `.split()` round trip). -/
theorem splitWords_joinSp (ws : List (List Char))
    (h : ∀ w ∈ ws, w ≠ [] ∧ ∀ c ∈ w, c.isWhitespace = false) :
    splitWords (joinSp ws) = ws := by
  induction ws with
  | nil => rfl
  | cons w rest ih =>
    rcases rest with _ | ⟨v, t⟩
    · have hw := h w (by simp)
      show splitWordsAux (joinSp [w]) [] = [w]
      have : joinSp [w] = w ++ [] := by simp [joinSp]
      rw [this, splitWordsAux_word w [] [] hw.2]
      simp [splitWordsAux, List.isEmpty_iff, hw.1]
    · have hw := h w (by simp)
      show splitWordsAux (joinSp (w :: v :: t)) [] = w :: v :: t
      have hj : joinSp (w :: v :: t) = w ++ (' ' :: joinSp (v :: t)) := rfl
      rw [hj, splitWordsAux_word w _ [] hw.2]
      simp only [List.nil_append, splitWordsAux]
      rw [if_pos (by decide), if_neg (by simp [List.isEmpty_iff, hw.1])]
      have := ih (fun u hu => h u (by simp [hu]))
      exact congrArg (w :: ·) this

/-- Appending one more word to a non-empty join. -/
theorem joinSp_append_single (xs : List (List Char)) (y : List Char)
    (h : xs ≠ []) : joinSp (xs ++ [y]) = joinSp xs ++ ' ' :: y := by
  induction xs with
  | nil => exact absurd rfl h
  | cons x rest ih =>
    rcases rest with _ | ⟨x', t⟩
    · rfl
    · show joinSp (x :: ((x' :: t) ++ [y])) = _
      have h1 : joinSp (x :: ((x' :: t) ++ [y]))
          = x ++ ' ' :: joinSp ((x' :: t) ++ [y]) := rfl
      rw [h1, ih (by simp)]
      simp [joinSp]

/-- Reversing a join is the join of the reversed words in reverse order. -/
theorem joinSp_reverse (ws : List (List Char)) :
    (joinSp ws).reverse = joinSp ((ws.reverse).map List.reverse) := by
  induction ws with
  | nil => rfl
  | cons w rest ih =>
    rcases rest with _ | ⟨v, t⟩
    · simp [joinSp]
    · have h1 : joinSp (w :: v :: t) = w ++ ' ' :: joinSp (v :: t) := rfl
      have hne : ((v :: t).reverse).map List.reverse ≠ [] := by simp
      rw [h1, List.reverse_append, List.reverse_cons]
      have h2 : ((w :: v :: t).reverse).map List.reverse
          = (((v :: t).reverse).map List.reverse) ++ [w.reverse] := by simp
      rw [h2, joinSp_append_single _ _ hne, ← ih]
      simp

/-- The join of non-empty whitespace-free words starts with a
non-whitespace character, so a leading `dropWhile` is a no-op. -/
theorem dropWhile_joinSp (ws : List (List Char))
    (h : ∀ w ∈ ws, w ≠ [] ∧ ∀ c ∈ w, c.isWhitespace = false) :
    (joinSp ws).dropWhile Char.isWhitespace = joinSp ws := by
  rcases ws with _ | ⟨w, rest⟩
  · rfl
  · have hw := h w (by simp)
    obtain ⟨c, w', rfl⟩ := List.exists_cons_of_ne_nil hw.1
    have hc : c.isWhitespace = false := hw.2 c (by simp)
    rcases rest with _ | ⟨v, t⟩
    · have h1 : joinSp [c :: w'] = c :: w' := rfl
      rw [h1, List.dropWhile_cons, if_neg (by simp [hc])]
    · have h1 : joinSp ((c :: w') :: v :: t)
          = c :: (w' ++ ' ' :: joinSp (v :: t)) := rfl
      rw [h1, List.dropWhile_cons, if_neg (by simp [hc])]

/-- The join of non-empty words is non-empty. -/
theorem joinSp_ne_nil (ws : List (List Char))
    (h : ∀ w ∈ ws, w ≠ []) (hne : ws ≠ []) : joinSp ws ≠ [] := by
  rcases ws with _ | ⟨w, rest⟩
  · exact absurd rfl hne
  · obtain ⟨c, w', rfl⟩ := List.exists_cons_of_ne_nil (h w (by simp))
    rcases rest with _ | ⟨v, t⟩
    · simp [joinSp]
    · show (c :: w') ++ ' ' :: joinSp (v :: t) ≠ []
      simp

/-- `strip()` is a no-op on a join of non-empty whitespace-free words. -/
theorem pyStrip_joinSp (ws : List (List Char))
    (h : ∀ w ∈ ws, w ≠ [] ∧ ∀ c ∈ w, c.isWhitespace = false) :
    pyStrip (joinSp ws) = joinSp ws := by
  have hrev : ∀ w ∈ (ws.reverse).map List.reverse,
      w ≠ [] ∧ ∀ c ∈ w, c.isWhitespace = false := by
    intro w hw
    simp only [List.mem_map, List.mem_reverse] at hw
    obtain ⟨u, hu, rfl⟩ := hw
    refine ⟨by simpa using (h u hu).1, ?_⟩
    intro c hc
    exact (h u hu).2 c (by simpa using hc)
  unfold pyStrip
  rw [dropWhile_joinSp ws h, joinSp_reverse, dropWhile_joinSp _ hrev,
    ← joinSp_reverse, List.reverse_reverse]

/-- Membership in the embedded `range(0, n, step)`. -/
theorem mem_pyRangeStep {n step i : Nat} (hstep : 0 < step) :
    i ∈ pyRangeStep n step ↔ ∃ j, i = j * step ∧ j * step < n := by
  have key : ∀ j : Nat, j < (n + step - 1) / step ↔ j * step < n := by
    intro j
    rw [Nat.lt_iff_add_one_le, Nat.le_div_iff_mul_le hstep, Nat.succ_mul]
    omega
  simp only [pyRangeStep, List.mem_map, List.mem_range]
  constructor
  · rintro ⟨j, hj, rfl⟩
    exact ⟨j, rfl, (key j).mp hj⟩
  · rintro ⟨j, rfl, hj⟩
    exact ⟨j, (key j).mpr hj, rfl⟩

/-- `filterMap` collapses to `map` when the function always succeeds. -/
theorem filterMap_eq_map_of {α β : Type} (l : List α) (f : α → Option β)
    (g : α → β) (h : ∀ a ∈ l, f a = some (g a)) : l.filterMap f = l.map g := by
  induction l with
  | nil => rfl
  | cons a t ih =>
    rw [List.filterMap_cons, h a (by simp), List.map_cons,
      ih (fun b hb => h b (by simp [hb]))]

/-- On a whitespace-free word list, every window the chunk loop visits is
kept verbatim: the loop is the map of single-space joins of the sliding
windows. -/
theorem chunkTextCore_eq_map (words : List (List Char))
    (hwf : ∀ w ∈ words, w ≠ [] ∧ ∀ c ∈ w, c.isWhitespace = false)
    (chunk_size step : Nat) (hstep : 0 < step) (hcs : 0 < chunk_size) :
    chunkTextCore words chunk_size step
      = (pyRangeStep words.length step).map
          (fun i => joinSp ((words.drop i).take chunk_size)) := by
  unfold chunkTextCore
  apply filterMap_eq_map_of
  intro i hi
  obtain ⟨j, rfl, hj⟩ := (mem_pyRangeStep hstep).mp hi
  have hlt : j * step < words.length := hj
  have hwin : ∀ w ∈ (words.drop (j * step)).take chunk_size,
      w ≠ [] ∧ ∀ c ∈ w, c.isWhitespace = false := by
    intro w hw
    exact hwf w (List.mem_of_mem_drop (List.mem_of_mem_take hw))
  have hne : (words.drop (j * step)).take chunk_size ≠ [] := by
    have hdrop : (words.drop (j * step)).length = words.length - j * step :=
      List.length_drop _ _
    have : 0 < ((words.drop (j * step)).take chunk_size).length := by
      rw [List.length_take, hdrop]
      omega
    exact List.ne_nil_of_length_pos this
  have hstrip := pyStrip_joinSp _ hwin
  have hjoin : joinSp ((words.drop (j * step)).take chunk_size) ≠ [] :=
    joinSp_ne_nil _ (fun w hw => (hwin w hw).1) hne
  simp only [hstrip, if_neg hjoin]

/-- The sliding window starting at word position `i` with the default
`chunk_size = 500`: `words[i : i + 500]`. -/
def winAt (words : List (List Char)) (i : Nat) : List (List Char) :=
  (words.drop i).take 500

/-- Suffix/prefix relation between two consecutive windows 450 words
apart: the later window's first `min 50 |later|` words are exactly the
earlier window's last `min 50 |later|` words. -/
theorem window_overlap {α : Type} (l : List α) (a : Nat)
    (h : a + 450 < l.length) :
    ((l.drop (a + 450)).take 500).take
        (min 50 ((l.drop (a + 450)).take 500).length)
      = ((l.drop a).take 500).drop
          (((l.drop a).take 500).length
            - min 50 ((l.drop (a + 450)).take 500).length) := by
  have hA : ((l.drop a).take 500).length = min 500 (l.length - a) := by
    simp [List.length_take, List.length_drop]
  have hB : ((l.drop (a + 450)).take 500).length
      = min 500 (l.length - (a + 450)) := by
    simp [List.length_take, List.length_drop]
  have hL : ((l.drop a).take 500).length
      - min 50 ((l.drop (a + 450)).take 500).length = 450 := by
    rw [hA, hB]; omega
  rw [hL]
  have ht : ((l.drop (a + 450)).take 500).take
      (min 50 ((l.drop (a + 450)).take 500).length)
      = ((l.drop (a + 450)).take 500).take 50 := by
    rcases le_or_lt ((l.drop (a + 450)).take 500).length 50 with hle | hlt
    · rw [min_eq_right hle, List.take_length, List.take_of_length_le hle]
    · rw [min_eq_left (le_of_lt hlt)]
  rw [ht, List.take_take, List.drop_take, List.drop_drop]
  norm_num

/-- C3 (amended): a text of `1 ≤ w ≤ 450` words (at the default
`chunk_size=500, overlap=50` the step is 450) yields exactly one chunk —
the words re-joined with single spaces — and a word-free text yields no
chunks. -/
theorem chunk_text_small_text (text : String)
    (h1 : 1 ≤ (splitWords text.toList).length)
    (h2 : (splitWords text.toList).length ≤ 450) :
    chunk_text text 500 50
      = some [String.mk (joinSp (splitWords text.toList))] := by
  have hwf := splitWords_wf text.toList
  unfold chunk_text
  rw [if_neg (by decide), if_neg (by decide)]
  have hstep : (500 : Nat) - 50 = 450 := rfl
  rw [hstep, chunkTextCore_eq_map _ hwf 500 450 (by omega) (by omega)]
  have hr : pyRangeStep (splitWords text.toList).length 450 = [0] := by
    unfold pyRangeStep
    have hdiv : ((splitWords text.toList).length + 450 - 1) / 450 = 1 := by
      omega
    rw [hdiv]
    rfl
  rw [hr]
  have htake : (splitWords text.toList).take 500 = splitWords text.toList :=
    List.take_of_length_le (by omega)
  simp only [List.map_cons, List.map_nil, List.drop_zero]
  rw [htake]

/-- The empty-text half of C3: a text with no words yields no chunks. -/
theorem chunk_text_no_words (text : String)
    (h0 : (splitWords text.toList).length = 0) :
    chunk_text text 500 50 = some [] := by
  have hnil : splitWords text.toList = [] := List.length_eq_zero.mp h0
  unfold chunk_text
  rw [if_neg (by decide), if_neg (by decide)]
  rw [show chunkTextCore (splitWords text.toList) 500 (500 - 50)
      = chunkTextCore [] 500 450 by rw [hnil]]
  rfl

/-- A 451-word text: 451 copies of the word `a`. -/
def text451 : String := String.mk (joinSp (List.replicate 451 ['a']))

/-- The replicated word list behind `text451` is well-formed. -/
theorem replicate_a_wf (n : Nat) :
    ∀ w ∈ List.replicate n ['a'], w ≠ [] ∧ ∀ c ∈ w, c.isWhitespace = false := by
  intro w hw
  rw [List.eq_of_mem_replicate hw]
  exact ⟨by simp, by decide⟩

/-- The words of `text451` are 451 copies of `a`. -/
theorem text451_words : splitWords text451.toList = List.replicate 451 ['a'] := by
  have : text451.toList = joinSp (List.replicate 451 ['a']) := rfl
  rw [this, splitWords_joinSp _ (replicate_a_wf 451)]

/-- C3 counterexample: `text451` has 451 words — strictly fewer than
`chunk_size = 500` — yet `chunk_text` emits two chunks, not one. -/
theorem chunk_text_single_chunk_counterexample :
    (splitWords text451.toList).length = 451 ∧ 451 < 500 ∧
    ((chunk_text text451 500 50).getD []).length = 2 := by
  have hwords := text451_words
  refine ⟨by rw [hwords, List.length_replicate], by omega, ?_⟩
  unfold chunk_text
  rw [if_neg (by decide), if_neg (by decide)]
  have hstep : (500 : Nat) - 50 = 450 := rfl
  rw [hstep, chunkTextCore_eq_map _ (by rw [hwords]; exact replicate_a_wf 451)
    500 450 (by omega) (by omega)]
  rw [hwords]
  simp only [Option.getD_some, List.length_map, pyRangeStep,
    List.length_range, List.length_replicate]

/-- C3 (amended claim, both halves): with the default
`chunk_size=500, overlap=50`, a text whose word count `w` satisfies
`1 ≤ w ≤ 450 = chunk_size - overlap` yields exactly one chunk, namely its
words re-joined with single spaces, and an empty or whitespace-only text
(no words) yields zero chunks. -/
theorem chunk_text_small_and_empty (text : String) :
    (1 ≤ (splitWords text.toList).length →
      (splitWords text.toList).length ≤ 450 →
      chunk_text text 500 50
        = some [String.mk (joinSp (splitWords text.toList))])
    ∧ ((splitWords text.toList).length = 0 →
      chunk_text text 500 50 = some []) :=
  ⟨fun h1 h2 => chunk_text_small_text text h1 h2,
   fun h0 => chunk_text_no_words text h0⟩

/-- Witness for C3's theorem at the concrete texts `"a b"` (two words,
one chunk) and `" "` (whitespace-only, zero chunks). -/
theorem chunk_text_small_and_empty_witness :
    chunk_text "a b" 500 50 = some ["a b"]
    ∧ chunk_text " " 500 50 = some [] := by
  constructor
  · have h := (chunk_text_small_and_empty "a b").1 (by decide) (by decide)
    exact h.trans (by decide)
  · exact (chunk_text_small_and_empty " ").2 (by decide)

/-- C4: behaviour of `chunk_text` on `overlap ≥ chunk_size`.  The code
performs no validation: with `overlap > chunk_size` the step is negative,
`range` is empty, and the call silently returns `[]`; with
`overlap = chunk_size` the zero step makes `range` raise `ValueError`.
Neither path rejects the parameters as a configuration error. -/
theorem chunk_text_invalid_overlap_silent :
    chunk_text "a b" 500 600 = some [] ∧ chunk_text "a b" 500 500 = none := by
  exact ⟨rfl, rfl⟩

/-- C5 (amended): for a text with at least one word, `chunk_text` at the
defaults emits exactly the sliding windows starting at
`0, 450, 900, ...` joined with single spaces; each window holds at most
500 words (and splitting a chunk recovers its window); and each pair of
consecutive windows shares exactly `min 50 |later window|` words — the
later window's prefix of that length is the earlier window's suffix.  (The
shared count is only 50 when the later window has at least 50 words; a
short final window is shared in its entirety.) -/
theorem chunk_text_sliding_windows (text : String)
    (hw : 1 ≤ (splitWords text.toList).length) :
    chunk_text text 500 50
      = some ((pyRangeStep (splitWords text.toList).length 450).map
          (fun i => String.mk (joinSp (winAt (splitWords text.toList) i))))
    ∧ (∀ i ∈ pyRangeStep (splitWords text.toList).length 450,
        (winAt (splitWords text.toList) i).length ≤ 500
        ∧ splitWords (joinSp (winAt (splitWords text.toList) i))
            = winAt (splitWords text.toList) i)
    ∧ (∀ j : Nat, 450 * (j + 1) < (splitWords text.toList).length →
        (winAt (splitWords text.toList) (450 * (j + 1))).take
            (min 50 (winAt (splitWords text.toList) (450 * (j + 1))).length)
          = (winAt (splitWords text.toList) (450 * j)).drop
              ((winAt (splitWords text.toList) (450 * j)).length
                - min 50 (winAt (splitWords text.toList) (450 * (j + 1))).length)) := by
  have hwf := splitWords_wf text.toList
  refine ⟨?_, ?_, ?_⟩
  · unfold chunk_text
    rw [if_neg (by decide), if_neg (by decide)]
    have hstep : (500 : Nat) - 50 = 450 := rfl
    rw [hstep, chunkTextCore_eq_map _ hwf 500 450 (by omega) (by omega)]
    rw [List.map_map]
    rfl
  · intro i _
    constructor
    · simp [winAt, List.length_take]
    · refine splitWords_joinSp _ ?_
      intro w hwin
      exact hwf w (List.mem_of_mem_drop (List.mem_of_mem_take hwin))
  · intro j hj
    have h450 : 450 * j + 450 < (splitWords text.toList).length := by omega
    have := window_overlap (splitWords text.toList) (450 * j) h450
    have hidx : 450 * j + 450 = 450 * (j + 1) := by ring
    rw [hidx] at this
    simpa [winAt] using this

/-- Witness for C5's theorem at the two-word text `"a b"`: a single
window `[0]`, whose chunk is the whole text. -/
theorem chunk_text_sliding_windows_witness :
    chunk_text "a b" 500 50 = some ["a b"] ∧ (1:Nat) ≤ 2 := by
  constructor
  · have h := (chunk_text_sliding_windows "a b" (by decide)).1
    exact h.trans (by decide)
  · omega

/-- C5 counterexample: on the 451-word `text451` the two consecutive
emitted windows do *not* share 50 words — the later window has a single
word, so the claimed 50-word prefix of the later window cannot equal the
50-word suffix of the earlier one. -/
theorem chunk_text_overlap_fifty_counterexample :
    chunk_text text451 500 50 = some [text451, "a"]
    ∧ (splitWords "a".toList).length = 1
    ∧ (splitWords text451.toList).length = 451
    ∧ ¬ ((splitWords "a".toList).take 50
        = (splitWords text451.toList).drop
            ((splitWords text451.toList).length - 50)) := by
  have hwords := text451_words
  refine ⟨?_, by decide, by rw [hwords, List.length_replicate], ?_⟩
  · unfold chunk_text
    rw [if_neg (by decide), if_neg (by decide)]
    have hstep : (500 : Nat) - 50 = 450 := rfl
    rw [hstep, chunkTextCore_eq_map _ (by rw [hwords]; exact replicate_a_wf 451)
      500 450 (by omega) (by omega), hwords]
    have hr : pyRangeStep (List.replicate 451 ['a'] : List (List Char)).length 450
        = [0, 450] := by
      simp only [List.length_replicate]
      rfl
    rw [hr]
    simp only [List.map_cons, List.map_nil, List.drop_zero]
    have e1 : String.mk (joinSp
        ((List.replicate 451 ['a'] : List (List Char)).take 500)) = text451 := by
      rw [List.take_of_length_le (by rw [List.length_replicate]; omega)]
      rfl
    have e2 : String.mk (joinSp
        (((List.replicate 451 ['a'] : List (List Char)).drop 450).take 500)) = "a" := by
      rw [show (List.replicate 451 ['a'] : List (List Char)).drop 450
          = List.replicate 1 ['a'] from by rw [List.drop_replicate],
        List.take_of_length_le (by rw [List.length_replicate]; omega)]
      rfl
    rw [e1, e2]
  · intro hcontra
    have hlen := congrArg List.length hcontra
    rw [hwords] at hlen
    simp only [List.length_drop, List.length_replicate] at hlen
    have h1 : ((splitWords "a".toList).take 50).length = 1 := by decide
    rw [h1] at hlen
    omega

/-! ## The index/store lock-step invariant (C1) -/

/-- The state invariant: the index holds exactly one vector per stored
chunk, and the record at every position `i` carries `chunk_id = i` (hence
ids are unique, monotonically increasing, and never reused). -/
def ChunkInvariant (s : RAGState) : Prop :=
  s.index.length = s.chunks.length
  ∧ s.chunks.map Chunk.chunk_id = List.range s.chunks.length

instance (s : RAGState) : Decidable (ChunkInvariant s) :=
  inferInstanceAs (Decidable (_ ∧ _))

/-- Appending chunk records preserves lengths additively. -/
theorem appendChunks_length (chunks : List Chunk) (tc : List String)
    (filename : String) :
    (appendChunks chunks tc filename).length = chunks.length + tc.length := by
  induction tc generalizing chunks with
  | nil => simp [appendChunks]
  | cons c rest ih =>
    rw [appendChunks, ih]
    simp
    omega

/-- Appending chunk records extends the id sequence `0, 1, 2, ...`. -/
theorem appendChunks_ids (chunks : List Chunk) (tc : List String)
    (filename : String)
    (h : chunks.map Chunk.chunk_id = List.range chunks.length) :
    (appendChunks chunks tc filename).map Chunk.chunk_id
      = List.range (chunks.length + tc.length) := by
  induction tc generalizing chunks with
  | nil => simpa using h
  | cons c rest ih =>
    rw [appendChunks]
    have hstep : (chunks
          ++ [({text := c, filename := filename, chunk_id := chunks.length} : Chunk)]).map
            Chunk.chunk_id
        = List.range (chunks
          ++ [({text := c, filename := filename, chunk_id := chunks.length} : Chunk)]).length := by
      rw [List.map_append, h, List.length_append]
      simp [List.range_succ]
    have := ih _ hstep
    rw [this]
    simp
    congr 1
    omega

/-- Ingesting one document preserves the invariant. -/
theorem addDoc_invariant (embed : String → Vec) (s : RAGState)
    (doc : Document) (h : ChunkInvariant s) :
    ChunkInvariant (addDoc embed s doc) := by
  obtain ⟨hlen, hids⟩ := h
  constructor
  · simp only [addDoc, List.length_append, List.length_map]
    rw [appendChunks_length, hlen]
  · simp only [addDoc]
    rw [appendChunks_ids _ _ _ hids, appendChunks_length]

/-- C1: every successful mutating operation — `add_documents` over any
batch and `clear_index` — preserves the lock-step invariant: the index
size equals the chunk-store length, and the record at each position `i`
has `chunk_id = i` (assigned as the store's length immediately before
insertion; ids are unique, increasing, never reused). -/
theorem mutations_preserve_invariant (embed : String → Vec)
    (docs : List Document) (s : RAGState) (h : ChunkInvariant s) :
    ChunkInvariant (add_documents embed docs s)
    ∧ ChunkInvariant (clear_index s) := by
  constructor
  · unfold add_documents
    induction docs generalizing s with
    | nil => exact h
    | cons d ds ih => exact ih _ (addDoc_invariant embed s d h)
  · exact ⟨rfl, rfl⟩

/-- Witness for C1's theorem: starting from the empty state (which
satisfies the invariant), ingesting one two-word document preserves it. -/
theorem mutations_preserve_invariant_witness :
    ChunkInvariant ⟨[], []⟩
    ∧ (ChunkInvariant (add_documents (fun _ => [0]) [⟨"a b", "f.txt"⟩] ⟨[], []⟩)
      ∧ ChunkInvariant (clear_index ⟨[], []⟩)) :=
  ⟨by decide,
   mutations_preserve_invariant (fun _ => [0]) [⟨"a b", "f.txt"⟩] ⟨[], []⟩
     (by decide)⟩

/-! ## Retrieval on an empty store (C9) and answer composition (C6, C7) -/

/-- C9: on an empty chunk store, retrieval returns the empty list without
error, for every embedder, every index content, every `top_k` and every
threshold — in particular the result does not depend on the embedder or on
the index, showing neither is consulted (the code returns before the
`encode` and `search` calls). -/
theorem retrieve_empty_store (embed : String → Vec) (s : RAGState)
    (q : String) (top_k : Nat) (t : ℚ) (h : s.chunks = []) :
    retrieve_relevant_chunks embed s q top_k t = [] := by
  unfold retrieve_relevant_chunks
  rw [if_pos (by rw [h]; rfl)]

/-- Witness for C9's theorem at a non-trivial index content. -/
theorem retrieve_empty_store_witness :
    (RAGState.mk [[1], [2]] []).chunks = []
    ∧ retrieve_relevant_chunks (fun _ => [0]) ⟨[[1], [2]], []⟩ "q" 5 (3 / 2) = [] :=
  ⟨rfl, retrieve_empty_store (fun _ => [0]) ⟨[[1], [2]], []⟩ "q" 5 (3 / 2) rfl⟩

/-- C6: whenever retrieval produces no results (in particular on an empty
store), `query` returns the fixed refusal answer, an empty source list and
`num_sources = 0` — for *every* completion service `llm`, i.e. without
consulting the completion service. -/
theorem query_empty_results_refusal (embed : String → Vec)
    (llm : String → String → Except String String) (s : RAGState)
    (question : String)
    (h : retrieve_relevant_chunks embed s question 5 (3 / 2) = []) :
    query embed llm s question = ⟨refusalAnswer, [], 0⟩ := by
  unfold query
  rw [h]
  rfl

/-- Witness for C6's theorem: a query against the empty store. -/
theorem query_empty_results_refusal_witness :
    retrieve_relevant_chunks (fun _ => [0]) ⟨[], []⟩ "q" 5 (3 / 2) = []
    ∧ query (fun _ => [0]) (fun _ _ => .ok "ignored") ⟨[], []⟩ "q"
      = ⟨refusalAnswer, [], 0⟩ :=
  ⟨rfl, query_empty_results_refusal (fun _ => [0]) (fun _ _ => .ok "ignored")
    ⟨[], []⟩ "q" rfl⟩

/-- C7: when retrieval produced results and the completion service fails
with any error `e`, `query` still returns a normal response record — the
answer is the descriptive string `"Error generating answer: " + e`, and the
sources list and count are assembled exactly as in the success case.  (The
embedding is total: no exception propagates to the caller.) -/
theorem query_llm_failure_degraded (embed : String → Vec) (s : RAGState)
    (question : String) (e : String)
    (h : retrieve_relevant_chunks embed s question 5 (3 / 2) ≠ []) :
    query embed (fun _ _ => .error e) s question
      = ⟨"Error generating answer: " ++ e,
         (retrieve_relevant_chunks embed s question 5 (3 / 2)).map make_source,
         (retrieve_relevant_chunks embed s question 5 (3 / 2)).length⟩ := by
  unfold query generate_answer
  simp [List.isEmpty_iff, h]

/-- Witness for C7's theorem on a one-chunk store whose single vector
matches the query embedding (distance 0 < 1.5, so retrieval is
non-empty). -/
theorem query_llm_failure_degraded_witness :
    retrieve_relevant_chunks (fun _ => [0]) ⟨[[0]], [⟨"a", "f", 0⟩]⟩ "q" 5 (3 / 2) ≠ []
    ∧ query (fun _ => [0]) (fun _ _ => .error "boom")
        ⟨[[0]], [⟨"a", "f", 0⟩]⟩ "q"
      = ⟨"Error generating answer: boom",
         (retrieve_relevant_chunks (fun _ => [0])
           ⟨[[0]], [⟨"a", "f", 0⟩]⟩ "q" 5 (3 / 2)).map make_source,
         (retrieve_relevant_chunks (fun _ => [0])
           ⟨[[0]], [⟨"a", "f", 0⟩]⟩ "q" 5 (3 / 2)).length⟩ := by
  have hne : retrieve_relevant_chunks (fun _ => [0])
      ⟨[[0]], [⟨"a", "f", 0⟩]⟩ "q" 5 (3 / 2) ≠ [] := by
    norm_num [retrieve_relevant_chunks, searchL2, sqDist, paddingDist,
      List.insertionSort, List.orderedInsert, List.filter, List.range,
      List.range.loop, List.replicate, List.filterMap, pyListIdx]
  exact ⟨hne, query_llm_failure_degraded (fun _ => [0])
    ⟨[[0]], [⟨"a", "f", 0⟩]⟩ "q" "boom" hne⟩

/-! ## Save/load round trip (C8) -/

/-- Decoding inverts encoding on every chunk record. -/
theorem decode_encode_chunk (c : Chunk) :
    decodeChunk (encodeChunk c) = some c := by
  simp [encodeChunk, decodeChunk]

/-- Decoding inverts encoding on every chunk list. -/
theorem mapM_decode_encode (l : List Chunk) :
    (l.map encodeChunk).mapM decodeChunk = some l := by
  induction l with
  | nil => rfl
  | cons c rest ih =>
    rw [List.map_cons, List.mapM_cons, decode_encode_chunk, ih]
    rfl

/-- C8: for every state, `save_index` followed by `load_index` reproduces
the index/store pair exactly — same index, same length, and chunk records
identical field for field. -/
theorem save_load_roundtrip (s : RAGState) :
    load_index (save_index s) = some s := by
  show ((s.chunks.map encodeChunk).mapM decodeChunk).map
      (fun cs => RAGState.mk s.index cs) = some s
  rw [mapM_decode_encode]
  rfl

/-! ## Lemmas about the search model (for C2) -/

/-- Every pair in the filled (non-padding) part of a search result is a
genuine candidate: distance below `FLT_MAX` and a valid insertion
position. -/
theorem searchL2_top_mem (db : List Vec) (q : Vec) (k : Nat) (p : ℚ × Int)
    (hp : p ∈ ((((List.range db.length).map
        (fun i => (sqDist q (db.getD i []), (i : Int)))).filter
          (fun p => p.1 < paddingDist)).insertionSort distLE).take k) :
    p.1 < paddingDist ∧ 0 ≤ p.2 ∧ p.2 < (db.length : Int) := by
  have hsort := List.mem_of_mem_take hp
  have hcand := (List.Perm.mem_iff (List.perm_insertionSort distLE _)).mp hsort
  obtain ⟨hmem, hdec⟩ := List.mem_filter.mp hcand
  obtain ⟨i, hi, rfl⟩ := List.mem_map.mp hmem
  have hi' := List.mem_range.mp hi
  refine ⟨by simpa using of_decide_eq_true hdec, by simp, ?_⟩
  show (i : Int) < (db.length : Int)
  exact_mod_cast hi'

/-- Every search-result pair is either a genuine candidate (distance below
`FLT_MAX`, valid position) or the padding pair `(FLT_MAX, -1)`. -/
theorem searchL2_mem (db : List Vec) (q : Vec) (k : Nat) (p : ℚ × Int)
    (hp : p ∈ searchL2 db q k) :
    (p.1 < paddingDist ∧ 0 ≤ p.2 ∧ p.2 < (db.length : Int))
    ∨ p = (paddingDist, -1) := by
  simp only [searchL2] at hp
  rcases List.mem_append.mp hp with hp | hp
  · exact Or.inl (searchL2_top_mem db q k p hp)
  · exact Or.inr (List.eq_of_mem_replicate hp)

/-- Search results come back in ascending distance order. -/
theorem searchL2_pairwise (db : List Vec) (q : Vec) (k : Nat) :
    List.Pairwise distLE (searchL2 db q k) := by
  simp only [searchL2]
  rw [List.pairwise_append]
  refine ⟨?_, ?_, ?_⟩
  · exact List.Pairwise.sublist (List.take_sublist _ _)
      (List.sorted_insertionSort distLE _)
  · exact List.pairwise_replicate.mpr (Or.inr (le_refl _))
  · intro a ha b hb
    have hb' := List.eq_of_mem_replicate hb
    subst hb'
    exact le_of_lt (searchL2_top_mem db q k a ha).1

/-- The filled part of a search result has at most `min k |db|` pairs. -/
theorem searchL2_top_length (db : List Vec) (q : Vec) (k : Nat) :
    (((((List.range db.length).map
        (fun i => (sqDist q (db.getD i []), (i : Int)))).filter
          (fun p => p.1 < paddingDist)).insertionSort distLE).take k).length
      ≤ min k db.length := by
  rw [List.length_take, List.length_insertionSort]
  have h1 := List.length_filter_le (fun p : ℚ × Int => decide (p.1 < paddingDist))
    ((List.range db.length).map (fun i => (sqDist q (db.getD i []), (i : Int))))
  simp only [List.length_map, List.length_range] at h1
  omega

/-- `Pairwise` survives a `filterMap` whose outputs respect the
relation. -/
theorem pairwise_filterMap_of {α β : Type} (R : α → α → Prop)
    (S : β → β → Prop) (f : α → Option β) (l : List α)
    (hf : ∀ a b x y, R a b → f a = some x → f b = some y → S x y)
    (h : List.Pairwise R l) : List.Pairwise S (l.filterMap f) := by
  induction l with
  | nil => simp
  | cons a tl ih =>
    obtain ⟨ha, ht⟩ := List.pairwise_cons.mp h
    rw [List.filterMap_cons]
    cases hfa : f a with
    | none => exact ih ht
    | some x =>
      rw [List.pairwise_cons]
      refine ⟨?_, ih ht⟩
      intro y hy
      obtain ⟨b, hb, hfb⟩ := List.mem_filterMap.mp hy
      exact hf a b x y (ha b hb) hfa hfb

/-- `filterMap` of an always-`none` function over a `replicate` is empty. -/
theorem filterMap_replicate_none {α β : Type} (f : α → Option β) (m : Nat)
    (x : α) (hx : f x = none) : (List.replicate m x).filterMap f = [] := by
  induction m with
  | zero => rfl
  | succ n ih => rw [List.replicate_succ, List.filterMap_cons, hx, ih]

/-! ## C2: retrieval emits exactly the below-threshold search pairs -/

/-- C2 (amended): on a non-empty store with the invariant
`|index| = |chunks|` and any threshold not exceeding the padding distance
`FLT_MAX`, retrieval emits a result exactly for each search pair with
`distance < threshold` and a valid position `0 ≤ index < n` (the
spec-side `retrieveSpec`), returns at most `min top_k n` results, each with
distance below the threshold, in the search's ascending-distance order
(no re-sorting).  The threshold bound is forced by the code's missing
`0 ≤ index` check: see the counterexample. -/
theorem retrieve_filters_search_pairs (embed : String → Vec) (s : RAGState)
    (q : String) (k : Nat) (t : ℚ) (hne : s.chunks ≠ [])
    (hlen : s.index.length = s.chunks.length) (ht : t ≤ paddingDist) :
    retrieve_relevant_chunks embed s q k t = retrieveSpec embed s q k t
    ∧ (retrieve_relevant_chunks embed s q k t).length ≤ min k s.chunks.length
    ∧ (∀ r ∈ retrieve_relevant_chunks embed s q k t, r.similarity_score < t)
    ∧ List.Pairwise (fun a b => a.similarity_score ≤ b.similarity_score)
        (retrieve_relevant_chunks embed s q k t) := by
  have hn : ¬(s.chunks.length = 0) := by
    simpa [List.length_eq_zero] using hne
  have hre : retrieve_relevant_chunks embed s q k t
      = (searchL2 s.index (embed q) k).filterMap (fun p =>
          if p.1 < t ∧ p.2 < (s.chunks.length : Int) then
            some ⟨(s.chunks.getD (pyListIdx s.chunks.length p.2) default).text,
                  (s.chunks.getD (pyListIdx s.chunks.length p.2) default).filename,
                  (s.chunks.getD (pyListIdx s.chunks.length p.2) default).chunk_id,
                  p.1⟩
          else none) := by
    unfold retrieve_relevant_chunks
    rw [if_neg hn]
  refine ⟨?_, ?_, ?_, ?_⟩
  · -- equality with the spec-side filter
    rw [hre]
    unfold retrieveSpec
    rw [if_neg hn]
    apply List.filterMap_congr
    intro p hp
    rcases searchL2_mem _ _ _ p hp with ⟨hpad, h0, hn'⟩ | rfl
    · rw [hlen] at hn'
      have hidx : pyListIdx s.chunks.length p.2 = p.2.toNat := by
        unfold pyListIdx
        rw [if_neg (not_lt.mpr h0)]
      by_cases hc : p.1 < t
      · rw [if_pos ⟨hc, hn'⟩, if_pos ⟨h0, hn', hc⟩, hidx]
      · rw [if_neg (fun hand => hc hand.1),
          if_neg (fun hand => hc hand.2.2)]
    · rw [if_neg (fun hand => absurd hand.1 (not_lt.mpr ht)),
        if_neg (fun hand => by simpa using hand.1)]
  · -- at most min top_k n results
    rw [hre]
    simp only [searchL2]
    rw [List.filterMap_append]
    rw [filterMap_replicate_none _ _ _
      (by rw [if_neg (fun hand => absurd hand.1 (not_lt.mpr ht))])]
    have h1 := List.length_filterMap_le (fun p : ℚ × Int =>
      if p.1 < t ∧ p.2 < (s.chunks.length : Int) then
        some (⟨(s.chunks.getD (pyListIdx s.chunks.length p.2) default).text,
              (s.chunks.getD (pyListIdx s.chunks.length p.2) default).filename,
              (s.chunks.getD (pyListIdx s.chunks.length p.2) default).chunk_id,
              p.1⟩ : RetrievalResult)
      else none)
      ((((List.range s.index.length).map
        (fun i => (sqDist (embed q) (s.index.getD i []), (i : Int)))).filter
          (fun p => p.1 < paddingDist)).insertionSort distLE |>.take k)
    have h2 := searchL2_top_length s.index (embed q) k
    rw [List.length_append]
    simp only [List.length_nil]
    omega
  · -- every result is below the threshold
    rw [hre]
    intro r hr
    obtain ⟨p, _, hfp⟩ := List.mem_filterMap.mp hr
    by_cases hc : p.1 < t ∧ p.2 < (s.chunks.length : Int)
    · rw [if_pos hc] at hfp
      cases hfp
      exact hc.1
    · rw [if_neg hc] at hfp
      cases hfp
  · -- ascending order is preserved
    rw [hre]
    refine pairwise_filterMap_of distLE _ _ _ ?_ (searchL2_pairwise _ _ _)
    intro a b x y hab hfa hfb
    by_cases hca : a.1 < t ∧ a.2 < (s.chunks.length : Int)
    · rw [if_pos hca] at hfa
      by_cases hcb : b.1 < t ∧ b.2 < (s.chunks.length : Int)
      · rw [if_pos hcb] at hfb
        cases hfa
        cases hfb
        exact hab
      · rw [if_neg hcb] at hfb
        cases hfb
    · rw [if_neg hca] at hfa
      cases hfa

/-- Witness for C2's theorem on a one-chunk store at the default
threshold `1.5`. -/
theorem retrieve_filters_search_pairs_witness :
    ([(⟨"a", "f", 0⟩ : Chunk)] ≠ ([] : List Chunk))
    ∧ ((3 / 2 : ℚ) ≤ paddingDist)
    ∧ retrieve_relevant_chunks (fun _ => [0]) ⟨[[0]], [⟨"a", "f", 0⟩]⟩ "q" 5 (3 / 2)
        = retrieveSpec (fun _ => [0]) ⟨[[0]], [⟨"a", "f", 0⟩]⟩ "q" 5 (3 / 2) := by
  have h := retrieve_filters_search_pairs (fun _ => [0])
    ⟨[[0]], [⟨"a", "f", 0⟩]⟩ "q" 5 (3 / 2) (by decide) rfl
    (by norm_num [paddingDist])
  exact ⟨by decide, by norm_num [paddingDist], h.1⟩

/-- C2 counterexample: with a threshold above `FLT_MAX` (e.g. `1e40`,
representable as a Python float), the padding pairs `(FLT_MAX, -1)` pass
the code's filter `dist < threshold and idx < len(chunks)` — `-1` wraps to
the last record — so a one-chunk store returns 5 results where the claim
allows at most `min(top_k, n) = 1`, and the code result disagrees with the
spec-side filter, which admits only valid positions `0 ≤ index < n`. -/
theorem retrieve_threshold_padding_counterexample :
    (retrieve_relevant_chunks (fun _ => [0]) ⟨[[0]], [⟨"a", "f", 0⟩]⟩ "q" 5
        (paddingDist + 1)).length = 5
    ∧ (retrieveSpec (fun _ => [0]) ⟨[[0]], [⟨"a", "f", 0⟩]⟩ "q" 5
        (paddingDist + 1)).length = 1
    ∧ min 5 ([(⟨"a", "f", 0⟩ : Chunk)] : List Chunk).length = 1 := by
  refine ⟨?_, ?_, rfl⟩
  · norm_num [retrieve_relevant_chunks, searchL2, sqDist, paddingDist,
      List.insertionSort, List.orderedInsert, List.filter, List.range,
      List.range.loop, List.replicate, List.filterMap, pyListIdx]
  · norm_num [retrieveSpec, searchL2, sqDist, paddingDist,
      List.insertionSort, List.orderedInsert, List.filter, List.range,
      List.range.loop, List.replicate, List.filterMap]

/-! ## C10: returned dicts are fresh copies, never aliases of the store -/

/-- Writing at one address does not change reads at another. -/
theorem getD_set_ne {α : Type} (l : List α) (r a : Nat) (v d : α)
    (h : r ≠ a) : (l.set r v).getD a d = l.getD a d := by
  simp only [List.getD, List.get?_eq_getElem?, List.getElem?_set_ne h]

/-- The retrieval loop invariant: the heap only grows, reads below the
original heap size are unchanged, and every collected result address is a
fresh cell (at or above the original size, below the current size). -/
theorem retrieveHeap_fold_invariant (t : ℚ) (chunkAddrs : List Nat)
    (h0 : PyHeap) (ps : List (ℚ × Int)) :
    ∀ acc : PyHeap × List Nat,
      h0.cells.length ≤ acc.1.cells.length →
      (∀ a, a < h0.cells.length → acc.1.cells.getD a [] = h0.cells.getD a []) →
      (∀ r ∈ acc.2, h0.cells.length ≤ r ∧ r < acc.1.cells.length) →
      (h0.cells.length ≤ (ps.foldl (fun acc p =>
          if p.1 < t ∧ p.2 < (chunkAddrs.length : Int) then
            let addr := chunkAddrs.getD (pyListIdx chunkAddrs.length p.2) 0
            let alloc := heapAlloc acc.1
              (dictSet (heapGet acc.1 addr) "similarity_score" (.rat p.1))
            (alloc.1, acc.2 ++ [alloc.2])
          else acc) acc).1.cells.length
      ∧ (∀ a, a < h0.cells.length →
          ((ps.foldl (fun acc p =>
            if p.1 < t ∧ p.2 < (chunkAddrs.length : Int) then
              let addr := chunkAddrs.getD (pyListIdx chunkAddrs.length p.2) 0
              let alloc := heapAlloc acc.1
                (dictSet (heapGet acc.1 addr) "similarity_score" (.rat p.1))
              (alloc.1, acc.2 ++ [alloc.2])
            else acc) acc).1.cells.getD a []) = h0.cells.getD a [])
      ∧ (∀ r ∈ (ps.foldl (fun acc p =>
            if p.1 < t ∧ p.2 < (chunkAddrs.length : Int) then
              let addr := chunkAddrs.getD (pyListIdx chunkAddrs.length p.2) 0
              let alloc := heapAlloc acc.1
                (dictSet (heapGet acc.1 addr) "similarity_score" (.rat p.1))
              (alloc.1, acc.2 ++ [alloc.2])
            else acc) acc).2,
          h0.cells.length ≤ r
          ∧ r < (ps.foldl (fun acc p =>
              if p.1 < t ∧ p.2 < (chunkAddrs.length : Int) then
                let addr := chunkAddrs.getD (pyListIdx chunkAddrs.length p.2) 0
                let alloc := heapAlloc acc.1
                  (dictSet (heapGet acc.1 addr) "similarity_score" (.rat p.1))
                (alloc.1, acc.2 ++ [alloc.2])
              else acc) acc).1.cells.length)) := by
  induction ps with
  | nil => intro acc h1 h2 h3; exact ⟨h1, h2, h3⟩
  | cons p rest ih =>
    intro acc h1 h2 h3
    rw [List.foldl_cons]
    by_cases hc : p.1 < t ∧ p.2 < (chunkAddrs.length : Int)
    · rw [if_pos hc]
      refine ih _ ?_ ?_ ?_
      · simp only [heapAlloc, List.length_append, List.length_cons,
          List.length_nil]
        omega
      · intro a hlt
        simp only [heapAlloc]
        rw [List.getD_append _ _ _ _ (by omega)]
        exact h2 a hlt
      · intro r hr
        simp only [heapAlloc, List.length_append, List.length_cons,
          List.length_nil]
        rcases List.mem_append.mp hr with hr | hr
        · have := h3 r hr
          omega
        · simp only [List.mem_cons, List.not_mem_nil, or_false] at hr
          subst hr
          simp only [heapAlloc]
          omega
    · rw [if_neg hc]
      exact ih _ h1 h2 h3

/-- Store reads are preserved by the heap-level retrieval. -/
theorem retrieveHeap_store_reads (embed : String → Vec) (h : PyHeap)
    (index : List Vec) (chunkAddrs : List Nat) (q : String) (k : Nat)
    (t : ℚ) :
    (∀ a, a < h.cells.length →
      heapGet (retrieveHeap embed h index chunkAddrs q k t).1 a = heapGet h a)
    ∧ (∀ r ∈ (retrieveHeap embed h index chunkAddrs q k t).2,
        h.cells.length ≤ r
        ∧ r < (retrieveHeap embed h index chunkAddrs q k t).1.cells.length) := by
  unfold retrieveHeap
  by_cases h0 : chunkAddrs.length = 0
  · rw [if_pos h0]
    exact ⟨fun a _ => rfl, fun r hr => absurd hr (List.not_mem_nil r)⟩
  · rw [if_neg h0]
    have := retrieveHeap_fold_invariant t chunkAddrs h
      (searchL2 index (embed q) k) (h, []) (le_refl _)
      (fun a _ => rfl) (fun r hr => absurd hr (List.not_mem_nil r))
    exact ⟨fun a ha => this.2.1 a ha, this.2.2⟩

/-- C10: heap-level retrieval (and the query built on it) never mutates
the stored chunk dicts — reads at the store's addresses are unchanged —
and every returned result is a freshly allocated copy, not one of the
store's addresses; hence overwriting any returned dict with any value
still leaves every stored record exactly as before the call. -/
theorem retrieve_copies_not_aliases (embed : String → Vec)
    (llm : String → String → Except String String) (h : PyHeap)
    (index : List Vec) (chunkAddrs : List Nat) (q : String) (k : Nat)
    (t : ℚ) (ha : ∀ a ∈ chunkAddrs, a < h.cells.length) :
    (∀ a ∈ chunkAddrs,
      heapGet (retrieveHeap embed h index chunkAddrs q k t).1 a = heapGet h a)
    ∧ (∀ r ∈ (retrieveHeap embed h index chunkAddrs q k t).2, r ∉ chunkAddrs)
    ∧ (∀ r ∈ (retrieveHeap embed h index chunkAddrs q k t).2, ∀ v : PyDict,
        ∀ a ∈ chunkAddrs,
        heapGet (heapSet (retrieveHeap embed h index chunkAddrs q k t).1 r v) a
          = heapGet h a)
    ∧ (∀ a ∈ chunkAddrs,
        heapGet (queryHeap embed llm h index chunkAddrs q).1 a = heapGet h a) := by
  obtain ⟨hreads, hfresh⟩ := retrieveHeap_store_reads embed h index chunkAddrs q k t
  refine ⟨fun a hmem => hreads a (ha a hmem), ?_, ?_, ?_⟩
  · intro r hr hmem
    have h1 := (hfresh r hr).1
    have h2 := ha r hmem
    omega
  · intro r hr v a hmem
    have h1 := (hfresh r hr).1
    have h2 := ha a hmem
    have hne : r ≠ a := by omega
    have : heapGet (heapSet (retrieveHeap embed h index chunkAddrs q k t).1 r v) a
        = heapGet (retrieveHeap embed h index chunkAddrs q k t).1 a := by
      simp only [heapGet, heapSet]
      exact getD_set_ne _ r a v [] hne
    rw [this]
    exact hreads a h2
  · intro a hmem
    obtain ⟨hreads5, _⟩ := retrieveHeap_store_reads embed h index chunkAddrs q 5 (3 / 2)
    exact hreads5 a (ha a hmem)

/-- Witness for C10's theorem: a one-record heap whose single store
address is `0`. -/
theorem retrieve_copies_not_aliases_witness :
    (∀ a ∈ [0], a < (PyHeap.mk [[("text", PVal.str "a")]]).cells.length)
    ∧ (∀ a ∈ [0],
        heapGet (retrieveHeap (fun _ => [0]) ⟨[[("text", PVal.str "a")]]⟩
          [[0]] [0] "q" 5 (3 / 2)).1 a
        = heapGet ⟨[[("text", PVal.str "a")]]⟩ a) := by
  have ha : ∀ a ∈ [0], a < (PyHeap.mk [[("text", PVal.str "a")]]).cells.length := by
    intro a hmem
    simp only [List.mem_cons, List.not_mem_nil, or_false] at hmem
    subst hmem
    decide
  exact ⟨ha, (retrieve_copies_not_aliases (fun _ => [0]) (fun _ _ => .ok "x")
    ⟨[[("text", PVal.str "a")]]⟩ [[0]] [0] "q" 5 (3 / 2) ha).1⟩

end RagVerify
